import Mathlib

/-!
# Shallow embedding of the orbit module registry core

This file models, in Lean 4, the core of the `hedlund/orbit` module
registry: the token codec (`services/modules/cache.go`: `encodeToken` /
`decodeToken`), the cache decorator (`Cache.ListVersions` /
`Cache.ProxyDownload`), the upstream GitHub service (`Service.ListVersions`,
`Service.ProxyDownload`, `validRepo`, `copy`) and the generic TTL store
(`mcache.Cache`).  Bytes are modelled as `Nat` (values below 256), times as
`Int` nanoseconds since the Unix epoch, and the AEAD cipher as an abstract
structure mirroring the Go `Cipher` interface.
-/

namespace Orbit

/-! ## Hex codec (Go `encoding/hex`)

`hex.EncodeToString` emits lowercase hex digits; `hex.DecodeString` accepts
both lowercase and uppercase digits and fails on any other character or an
odd-length input. -/

/-- Lowercase hex digit for a value below 16, as in Go `encoding/hex`. -/
def hexDigit (n : Nat) : Char :=
  if n < 10 then Char.ofNat (48 + n) else Char.ofNat (87 + n)

/-- Go `hex.EncodeToString`: each byte becomes two lowercase hex digits. -/
def hexEncode (bs : List Nat) : String :=
  String.mk (bs.map (fun b => [hexDigit (b / 16), hexDigit (b % 16)])).flatten

/-- Go `hex.fromHexChar`: accepts `0-9`, `a-f` and `A-F`. -/
def fromHexChar (ch : Char) : Option Nat :=
  let c := ch.toNat
  if 48 ≤ c ∧ c ≤ 57 then some (c - 48)
  else if 97 ≤ c ∧ c ≤ 102 then some (c - 87)
  else if 65 ≤ c ∧ c ≤ 70 then some (c - 55)
  else none

/-- Pairwise hex decoding of a character list; odd length or a non-hex
character fails, as in Go `hex.DecodeString`. -/
def hexDecodeList : List Char → Option (List Nat)
  | [] => some []
  | [_] => none
  | c1 :: c2 :: rest => do
      let h ← fromHexChar c1
      let l ← fromHexChar c2
      let tl ← hexDecodeList rest
      pure ((h * 16 + l) :: tl)

/-- Go `hex.DecodeString`. -/
def hexDecode (s : String) : Option (List Nat) :=
  hexDecodeList s.data

theorem fromHexChar_hexDigit : ∀ n < 16, fromHexChar (hexDigit n) = some n := by
  decide

theorem hexDecodeList_append (a b : List Nat) (rest : List Char)
    (ha : ∀ x ∈ a, x < 256) (h : hexDecodeList rest = some b) :
    hexDecodeList ((a.map (fun x => [hexDigit (x / 16), hexDigit (x % 16)])).flatten ++ rest)
      = some (a ++ b) := by
  induction a with
  | nil => simpa using h
  | cons x xs ih =>
      have hx : x < 256 := ha x (List.mem_cons_self x xs)
      have h1 : x / 16 < 16 := Nat.div_lt_of_lt_mul (by omega)
      have h2 : x % 16 < 16 := Nat.mod_lt _ (by omega)
      simp only [List.map_cons, List.flatten, List.cons_append, List.append_assoc]
      show hexDecodeList (hexDigit (x / 16) :: hexDigit (x % 16) :: _) = _
      rw [hexDecodeList, fromHexChar_hexDigit _ h1, fromHexChar_hexDigit _ h2]
      have ih' := ih (fun y hy => ha y (List.mem_cons_of_mem x hy))
      simp only [List.append_eq, List.nil_append, List.append_assoc] at ih' ⊢
      rw [ih']
      have hdm : x / 16 * 16 + x % 16 = x := by omega
      simp [hdm]

/-- `hexDecode` is a left inverse of `hexEncode` on genuine byte lists. -/
theorem hexDecode_hexEncode (bs : List Nat) (hb : ∀ x ∈ bs, x < 256) :
    hexDecode (hexEncode bs) = some bs := by
  have := hexDecodeList_append bs [] [] hb rfl
  simpa [hexDecode, hexEncode] using this

/-- A successful hex decode consumes exactly two characters per byte. -/
theorem hexDecodeList_length : ∀ (l : List Char) (bs : List Nat),
    hexDecodeList l = some bs → l.length = 2 * bs.length := by
  intro l
  induction l using hexDecodeList.induct with
  | case1 => intro bs h; simp [hexDecodeList] at h; simp [← h]
  | case2 c => intro bs h; simp [hexDecodeList] at h
  | case3 c1 c2 rest ih =>
      intro bs h
      rw [hexDecodeList] at h
      cases h1 : fromHexChar c1 with
      | none => rw [h1] at h; simp at h
      | some v1 =>
        cases h2 : fromHexChar c2 with
        | none => rw [h1, h2] at h; simp at h
        | some v2 =>
          cases h3 : hexDecodeList rest with
          | none => rw [h1, h2, h3] at h; simp at h
          | some tl =>
            rw [h1, h2, h3] at h
            simp at h
            subst h
            simp [ih tl h3]
            omega

/-! ## Token codec (services/modules/cache.go: `encodeToken` / `decodeToken`)

Times are `Int` nanoseconds since the Unix epoch (Go `time.Time` /
`time.Duration`); `Time.Unix()` truncates to whole seconds (floor).  The
AEAD cipher is the Go `Cipher` interface; `Seal n p` is the ciphertext
(authentication tag included) and the call site prepends the nonce, as
`gcm.Seal(nonce, nonce, b, nil)` does with `dst = nonce`. -/

/-- The Go `Cipher` interface from services/modules/cache.go (additional
data is always `nil` at the call sites and is omitted). -/
structure GCipher where
  NonceSize : Nat
  Seal : List Nat → List Nat → List Nat
  Open : List Nat → List Nat → Option (List Nat)

/-- The Go `encodedToken` struct: the raw bearer credential plus the
issuance time in whole Unix seconds (`encoded_at`). -/
structure EncToken where
  Token : String
  EncodedAt : Int
deriving DecidableEq

/-- Bytes of a string, one `Nat` per character. -/
def strBytes (s : String) : List Nat := s.data.map Char.toNat

/-- Models `json.Marshal` of the Go `encodedToken` struct: an injective,
invertible serialization of the credential string and the issuance second
(JSON surface syntax is abstracted; `unmarshalToken` is its inverse). -/
def marshalToken (t : EncToken) : List Nat :=
  (strBytes t.Token).length ::
    (strBytes t.Token ++ [if t.EncodedAt < 0 then 1 else 0, t.EncodedAt.natAbs])

/-- Models `json.Unmarshal` into the Go `encodedToken` struct: the partial
inverse of `marshalToken`, failing on malformed input. -/
def unmarshalToken (bs : List Nat) : Option EncToken :=
  match bs with
  | [] => none
  | n :: rest =>
    if n ≤ rest.length then
      match rest.drop n with
      | [sign, mag] =>
          some ⟨String.mk ((rest.take n).map Char.ofNat),
                if sign = 1 then -(mag : Int) else (mag : Int)⟩
      | _ => none
    else none

theorem unmarshalToken_marshalToken (t : EncToken) :
    unmarshalToken (marshalToken t) = some t := by
  obtain ⟨tok, at0⟩ := t
  simp only [marshalToken, unmarshalToken, strBytes]
  rw [if_pos (by simp)]
  rw [List.drop_left' (by simp), List.take_left' (by simp)]
  simp only [List.map_map]
  have hmap : tok.data.map (Char.ofNat ∘ Char.toNat) = tok.data := by
    rw [show (Char.ofNat ∘ Char.toNat) = id from funext Char.ofNat_toNat, List.map_id]
  rw [hmap]
  by_cases h : at0 < 0
  · simp only [h, if_true, Option.some.injEq, EncToken.mk.injEq, if_pos rfl]
    exact ⟨trivial, by omega⟩
  · simp only [h, if_false, Option.some.injEq, EncToken.mk.injEq]
    rw [if_neg (by omega)]
    exact ⟨trivial, by omega⟩

/-- Distinguishable kinds of `decodeToken` failure: `formatError` is a
plain wrapped error (hex decode or JSON unmarshal failure),
`invalidToken` corresponds to the `errInvalidToken` sentinel and to AEAD
authentication failure, `tokenExpired` to the `errTokenExpired` sentinel. -/
inductive TokenError where
  | formatError
  | invalidToken
  | tokenExpired
deriving DecidableEq

/-- Outcome of `decodeToken`: a credential, an error, or a runtime panic
(Go slice-bounds violation). -/
inductive DecodeResult where
  | ok (token : String)
  | err (e : TokenError)
  | panicked
deriving DecidableEq

/-- Nanoseconds per second. -/
def nsPerSec : Int := 1000000000

/-- `Handler.encodeToken` (cache.go lines 237-253): marshal
`{token, now.Unix()}`, seal it under a fresh `nonce` (passed here as a
parameter in place of `crypto/rand`), prepend the nonce and hex-encode.
`now` is in nanoseconds; `.Unix()` floors to whole seconds. -/
def encodeToken (c : GCipher) (nonce : List Nat) (now : Int) (token : String) : String :=
  let b := marshalToken ⟨token, Int.fdiv now nsPerSec⟩
  hexEncode (nonce ++ c.Seal nonce b)

/-- `Handler.decodeToken` (cache.go lines 255-284), translated faithfully:
note that the too-short guard compares `len(encoded)` — the length of the
hex *string* — against the nonce size, while the subsequent
`ciphertext[:nonceSize]` slices the *decoded* bytes, which panics whenever
the decoded length is below the nonce size but the string length is not.
The expiry check is `!now.Before(time.Unix(encodedAt,0).Add(expiration))`. -/
def decodeToken (c : GCipher) (expiration : Int) (now : Int) (encoded : String) :
    DecodeResult :=
  match hexDecode encoded with
  | none => .err .formatError
  | some bs =>
    if encoded.length < c.NonceSize then .err .invalidToken
    else if bs.length < c.NonceSize then .panicked
    else
      match c.Open (bs.take c.NonceSize) (bs.drop c.NonceSize) with
      | none => .err .invalidToken
      | some b =>
        match unmarshalToken b with
        | none => .err .formatError
        | some t =>
          if now < t.EncodedAt * nsPerSec + expiration then .ok t.Token
          else .err .tokenExpired

/-- A concrete instance of the `Cipher` interface used to exercise the
codec on closed inputs: the "ciphertext" is the plaintext with the nonce
appended, and `Open` checks the nonce suffix. -/
def suffixCipher (ns : Nat) : GCipher where
  NonceSize := ns
  Seal := fun n p => p ++ n
  Open := fun n c =>
    if n.length ≤ c.length ∧ c.drop (c.length - n.length) = n then
      some (c.take (c.length - n.length))
    else none

theorem suffixCipher_correct (ns : Nat) :
    ∀ n p, (suffixCipher ns).Open n ((suffixCipher ns).Seal n p) = some p := by
  intro n p
  simp only [suffixCipher]
  rw [if_pos]
  · rw [List.length_append, Nat.add_sub_cancel, List.take_left]
  · refine ⟨by simp, ?_⟩
    rw [List.length_append, Nat.add_sub_cancel, List.drop_left]

/-- `a` and `b` differ in exactly one bit (as 32-bit quantities). -/
def isOneBitFlip (a b : Nat) : Bool :=
  (List.range 32).any (fun k => Nat.xor a b = 2 ^ k)

/-- `sc` is `s` with a single bit of a single character flipped. -/
def oneBitCorruption (s sc : String) : Prop :=
  s.data.length = sc.data.length ∧
  ∃ i, i < s.data.length ∧
    isOneBitFlip (s.data.getD i ' ').toNat (sc.data.getD i ' ').toNat = true ∧
    ∀ j, j < s.data.length → j ≠ i → s.data.getD j ' ' = sc.data.getD j ' '

/-- Evaluation of `decodeToken` on any string that hex-decodes to a
nonce-sized prefix plus a remainder: the buggy length guard passes and no
panic occurs, so the outcome is decided by `Open`, `unmarshalToken` and
the expiry comparison. -/
theorem decodeToken_eval (c : GCipher) (exp now : Int) (s : String)
    (nonce ct : List Nat) (hdec : hexDecode s = some (nonce ++ ct))
    (hn : nonce.length = c.NonceSize) :
    decodeToken c exp now s =
      (match c.Open nonce ct with
      | none => .err .invalidToken
      | some b =>
        match unmarshalToken b with
        | none => .err .formatError
        | some t =>
          if now < t.EncodedAt * nsPerSec + exp then .ok t.Token
          else .err .tokenExpired) := by
  have hlen : s.data.length = 2 * (nonce ++ ct).length :=
    hexDecodeList_length s.data _ hdec
  have hslen : s.length = s.data.length := rfl
  have hbs : (nonce ++ ct).length = nonce.length + ct.length := List.length_append _ _
  simp only [decodeToken, hdec]
  rw [if_neg (by rw [hslen, hlen]; omega), if_neg (by rw [hbs]; omega)]
  rw [List.take_left' hn, List.drop_left' hn]

/-- Decoding an encoded token reduces to the expiry comparison against the
issuance time truncated to whole seconds. -/
theorem decodeToken_encodeToken_core
    (c : GCipher) (hC : ∀ n p, c.Open n (c.Seal n p) = some p)
    (nonce : List Nat) (hn : nonce.length = c.NonceSize)
    (tok : String) (t0 exp t : Int)
    (hb : ∀ x ∈ nonce ++ c.Seal nonce (marshalToken ⟨tok, Int.fdiv t0 nsPerSec⟩), x < 256) :
    decodeToken c exp t (encodeToken c nonce t0 tok) =
      if t < Int.fdiv t0 nsPerSec * nsPerSec + exp then .ok tok
      else .err .tokenExpired := by
  have hdec : hexDecode (encodeToken c nonce t0 tok)
      = some (nonce ++ c.Seal nonce (marshalToken ⟨tok, Int.fdiv t0 nsPerSec⟩)) :=
    hexDecode_hexEncode _ hb
  rw [decodeToken_eval c exp t _ _ _ hdec hn, hC]
  simp only [unmarshalToken_marshalToken]

/-- C1 (amended).  Token round-trip against `encodeToken`/`decodeToken`
(services/modules/cache.go): for a cipher satisfying the AEAD
correctness law, (1) decoding the encoded token returns the credential at
every time strictly before the issuance time truncated to whole seconds
plus the configured expiration, and (2) returns the Expired-Token error at
every time at or after that bound; (3) a corruption that breaks hex
decoding yields a format error, not an Invalid-Token error; (4) a
corruption that leaves the decoded bytes unchanged (for instance a hex
letter-case flip) still decodes to the original credential; (5) a
corruption whose altered nonce/ciphertext pair the cipher rejects yields
the Invalid-Token error. -/
theorem token_round_trip_amended
    (c : GCipher) (hC : ∀ n p, c.Open n (c.Seal n p) = some p)
    (nonce : List Nat) (hn : nonce.length = c.NonceSize)
    (tok : String) (t0 exp : Int)
    (hb : ∀ x ∈ nonce ++ c.Seal nonce (marshalToken ⟨tok, Int.fdiv t0 nsPerSec⟩), x < 256) :
    (∀ t, t < Int.fdiv t0 nsPerSec * nsPerSec + exp →
        decodeToken c exp t (encodeToken c nonce t0 tok) = .ok tok)
    ∧ (∀ t, Int.fdiv t0 nsPerSec * nsPerSec + exp ≤ t →
        decodeToken c exp t (encodeToken c nonce t0 tok) = .err .tokenExpired)
    ∧ (∀ t s, hexDecode s = none → decodeToken c exp t s = .err .formatError)
    ∧ (∀ t s, hexDecode s = hexDecode (encodeToken c nonce t0 tok) →
        t < Int.fdiv t0 nsPerSec * nsPerSec + exp →
        decodeToken c exp t s = .ok tok)
    ∧ (∀ t s bs, hexDecode s = some bs → c.NonceSize ≤ bs.length →
        c.Open (bs.take c.NonceSize) (bs.drop c.NonceSize) = none →
        decodeToken c exp t s = .err .invalidToken) := by
  refine ⟨?_, ?_, ?_, ?_, ?_⟩
  · intro t ht
    rw [decodeToken_encodeToken_core c hC nonce hn tok t0 exp t hb, if_pos ht]
  · intro t ht
    rw [decodeToken_encodeToken_core c hC nonce hn tok t0 exp t hb,
      if_neg (by omega)]
  · intro t s h
    simp only [decodeToken, h]
  · intro t s hs ht
    have hdec : hexDecode (encodeToken c nonce t0 tok)
        = some (nonce ++ c.Seal nonce (marshalToken ⟨tok, Int.fdiv t0 nsPerSec⟩)) :=
      hexDecode_hexEncode _ hb
    rw [decodeToken_eval c exp t s _ _ (hs.trans hdec) hn, hC]
    simp only [unmarshalToken_marshalToken, if_pos ht]
  · intro t s bs hdec hlen hopen
    have hl : s.data.length = 2 * bs.length := hexDecodeList_length s.data _ hdec
    have hslen : s.length = s.data.length := rfl
    simp only [decodeToken, hdec]
    rw [if_neg (by omega), if_neg (by omega), hopen]

/-- Witness: the amended round-trip at a concrete cipher, nonce,
credential and times. -/
theorem token_round_trip_witness :
    decodeToken (suffixCipher 2) (60 * nsPerSec) 100
      (encodeToken (suffixCipher 2) [171, 205] 0 "t") = .ok "t" :=
  (token_round_trip_amended (suffixCipher 2) (suffixCipher_correct 2)
    [171, 205] rfl "t" 0 (60 * nsPerSec) (by decide)).1 100 (by decide)

/-- Counterexample to C1 as stated: (a) flipping one bit of the first hex
character of a genuine encoded token (`'a'` to `'A'`) is a single-bit
corruption after which `decodeToken` still returns the original
credential — hex decoding is case-insensitive — rather than an
Invalid-Token error; (b) a token encoded at `t0 = 0.5s` with a 60s
expiration is rejected as expired at `t = 60.2s` even though
`t < t0 + expiration`, because the issuance time is truncated to whole
seconds. -/
theorem token_round_trip_counterexample :
    oneBitCorruption (encodeToken (suffixCipher 2) [171, 205] 0 "t")
      "Abcd01740000abcd"
    ∧ decodeToken (suffixCipher 2) (60 * nsPerSec) 0 "Abcd01740000abcd" = .ok "t"
    ∧ (60200000000 : Int) < 500000000 + 60 * nsPerSec
    ∧ decodeToken (suffixCipher 2) (60 * nsPerSec) 60200000000
        (encodeToken (suffixCipher 2) [171, 205] 500000000 "t")
        = .err .tokenExpired := by
  refine ⟨⟨by decide, 0, by decide, by decide, by decide⟩, by decide, by decide, by decide⟩

/-- C2: with the AES-GCM nonce size of 12 bytes, the 16-character hex
string `"0000000000000000"` decodes to 8 bytes; the guard compares the
16-character *string* length against 12 and passes, and the nonce split
`ciphertext[:nonceSize]` then slices past the end of the 8 decoded bytes —
a runtime panic instead of the format error the specification requires. -/
theorem decodeToken_short_input_panics :
    decodeToken (suffixCipher 12) (60 * nsPerSec) 0 "0000000000000000"
      = .panicked := by decide

/-! ## TTL store (pkg/mcache: `Cache.Get` / `Cache.Set`)

The mutex-guarded map is modelled as an association list in which `set`
replaces any previous binding for the key.  Times are `Int` nanoseconds
(`UnixNano`); a stored absolute expiry of `0` is the "never expires"
sentinel.  `Cache.Get` as written never returns: it takes `mu.RLock()`
but defers `mu.Unlock()`, and unlocking a read-locked `sync.RWMutex` for
writing is an unconditional, unrecoverable runtime fatal
(`sync: Unlock of unlocked RWMutex`), thrown when the deferred call runs
— even single-threaded, on every call. -/

/-- A call that either returns normally or dies in the
`sync: Unlock of unlocked RWMutex` runtime fatal. -/
inductive FatalOr (α : Type) where
  | ret (a : α)
  | fatal

/-- The mcache `item` struct: a value plus its absolute expiry in
nanoseconds (`0` means no expiration). -/
structure McItem (V : Type) where
  value : V
  expires : Int
deriving DecidableEq

/-- `item.expired`: an item with the `0` sentinel never expires; otherwise
it is expired strictly after its absolute expiry. -/
def McItem.expired {V : Type} (i : McItem V) (now : Int) : Bool :=
  if i.expires = 0 then false else decide (now > i.expires)

/-- The mcache `Cache` struct: default expiry plus the key-value map. -/
structure MCache (K V : Type) where
  expiry : Int
  items : List (K × McItem V)

/-- The read the body of `Cache.Get` computes between `mu.RLock()` and
the deferred call — equally, what `Get` returns with the evident intent
`mu.RUnlock()` in place of the mismatched `mu.Unlock()`: a lazy
expiration check on read, with no mutation of the map. -/
def MCache.getRead {K V : Type} [DecidableEq K] (c : MCache K V) (now : Int)
    (key : K) : Option V :=
  match c.items.lookup key with
  | some it => if it.expired now then none else some it.value
  | none => none

/-- `Cache.Get` (part_003 lines 31-44) as written: the body computes the
lazy-expiry read, but the method pairs `mu.RLock()` with
`defer mu.Unlock()`, so on return the deferred `Unlock` of a merely
read-locked `sync.RWMutex` throws the unrecoverable runtime fatal
`sync: Unlock of unlocked RWMutex` — the computed value is never
delivered to the caller, on any call. -/
def MCache.get {K V : Type} [DecidableEq K] (c : MCache K V) (now : Int)
    (key : K) : FatalOr (Option V) :=
  let _ := MCache.getRead c now key
  .fatal

/-- `Cache.Set`: the absolute expiry is computed from the optional
per-call duration, defaulting to the store's configured expiry; a
non-positive duration stores the "never expires" sentinel `0`. -/
def MCache.set {K V : Type} [DecidableEq K] (c : MCache K V) (now : Int)
    (key : K) (value : V) (d : Option Int) : MCache K V :=
  let expiry := d.getD c.expiry
  let expires : Int := if expiry > 0 then now + expiry else 0
  { c with items := (key, ⟨value, expires⟩) ::
      c.items.filter (fun p => decide (p.1 ≠ key)) }

/-! ## Cache decorator (services/modules/cache.go: `Cache`) -/

/-- Generic service error: an HTTP-status-bearing error (`httpErr`) or a
plain one. -/
inductive SvcErr where
  | http (code : Nat) (msg : String)
  | other (msg : String)
deriving DecidableEq

/-- `Cache.ListVersions` key: the coordinate joined with `"-"`. -/
def cacheKey (owner repo module : String) : String :=
  owner ++ "-" ++ repo ++ "-" ++ module

/-- `Cache.ProxyDownload` filename: the coordinate and version joined with
`"-"`, suffixed `.tar.gz`. -/
def archiveFilename (owner repo module version : String) : String :=
  owner ++ "-" ++ repo ++ "-" ++ module ++ "-" ++ version ++ ".tar.gz"

/-- `Cache.ListVersions` (cache.go lines 36-49) composed with the
program's one `KeyValueStore` implementation, the mcache store: consult
the store first; on a hit return the cached list, on a miss consult the
wrapped repository (whose one result is the `repoResult` parameter),
cache only successes (no per-call duration, hence the store default), and
report whether the repository was invoked.  Because `Cache.Get` dies in
its deferred unlock, the branches after the store read are unreachable
in the program as written and the whole call is fatal. -/
def cacheListVersions (store : MCache String (List String)) (now : Int)
    (owner repo module : String) (repoResult : Except SvcErr (List String)) :
    FatalOr (Except SvcErr (List String) × MCache String (List String) × Bool) :=
  let key := cacheKey owner repo module
  match store.get now key with
  | .fatal => .fatal
  | .ret found =>
    match found with
    | some v => .ret (.ok v, store, false)
    | none =>
      match repoResult with
      | .error e => .ret (.error e, store, true)
      | .ok v => .ret (.ok v, store.set now key v none, true)

/-- The decorator's read-through logic over the read `Cache.Get`
computes (the program once the store's lock slip is repaired): hit
returns the cached list without the repository, miss consults the
repository and caches only successes under the store default expiry. -/
def cacheListVersionsRead (store : MCache String (List String)) (now : Int)
    (owner repo module : String) (repoResult : Except SvcErr (List String)) :
    Except SvcErr (List String) × MCache String (List String) × Bool :=
  let key := cacheKey owner repo module
  match MCache.getRead store now key with
  | some v => (.ok v, store, false)
  | none =>
    match repoResult with
    | .error e => (.error e, store, true)
    | .ok v => (.ok v, store.set now key v none, true)

/-- `Cache.ProxyDownload` (cache.go lines 51-76) control flow: `openRes`,
`copyRes`, `createRes` and `repoRes` are the outcomes of `files.Open`,
`io.Copy` from the cached file, `files.Create`, and the wrapped
repository's `ProxyDownload`.  Returns the call's result and whether the
wrapped repository was invoked.  `createRes` only decides whether the
output sink is teed into the cache file; it never changes the result. -/
def cacheProxyDownload (ε : Type) (openRes : Except ε Unit)
    (copyRes : Except ε Unit) (createRes : Except ε Unit)
    (repoRes : Except ε Unit) : Except ε Unit × Bool :=
  match openRes with
  | .ok _ =>
    match copyRes with
    | .error e => (.error e, false)
    | .ok _ => (.ok (), false)
  | .error _ =>
    match createRes with
    | _ => (repoRes, true)

/-- C3.  `Cache.ProxyDownload`: a successful open followed by a successful
copy returns success without invoking the wrapped repository; a copy
failure is returned immediately, still without invoking the repository;
an open failure proceeds as a cache miss and the wrapped repository's
result is returned (whatever the cache-file creation outcome). -/
theorem cache_proxy_download_fallback (ε : Type)
    (createRes repoRes : Except ε Unit) :
    (cacheProxyDownload ε (.ok ()) (.ok ()) createRes repoRes
        = (.ok (), false))
    ∧ (∀ e, cacheProxyDownload ε (.ok ()) (.error e) createRes repoRes
        = (.error e, false))
    ∧ (∀ (e : ε) (copyRes : Except ε Unit),
        cacheProxyDownload ε (.error e) copyRes createRes repoRes
          = (repoRes, true)) := by
  exact ⟨rfl, fun _ => rfl, fun _ _ => rfl⟩

/-- C7 (the code at the failing input).  Every `Cache.ListVersions` call
with caching enabled dies in the store read: `mcache.Cache.Get` pairs
`mu.RLock()` with a deferred `mu.Unlock()`, an unconditional runtime
fatal, so the decorator never observes a hit or a miss.  The
read-through semantics the claim states is exactly what the decorator
performs once the store read returns (the evident intent, `mu.RUnlock()`):
a miss consults the repository once, caches the success under the store
default expiry, and a second call within the TTL is served from the store
with no repository call and an equal result. -/
theorem cache_list_versions_fatal :
    cacheListVersions (⟨10 * nsPerSec, []⟩ : MCache String (List String)) 0
        "acme" "infra" "network" (.ok ["1.0.0"]) = .fatal
    ∧ cacheListVersionsRead (⟨10 * nsPerSec, []⟩ : MCache String (List String))
        0 "acme" "infra" "network" (.ok ["1.0.0"])
      = (.ok ["1.0.0"],
         MCache.set (⟨10 * nsPerSec, []⟩ : MCache String (List String)) 0
           (cacheKey "acme" "infra" "network") ["1.0.0"] none, true)
    ∧ cacheListVersionsRead
        (MCache.set (⟨10 * nsPerSec, []⟩ : MCache String (List String)) 0
          (cacheKey "acme" "infra" "network") ["1.0.0"] none)
        (9 * nsPerSec) "acme" "infra" "network" (.error (.other "boom"))
      = (.ok ["1.0.0"],
         MCache.set (⟨10 * nsPerSec, []⟩ : MCache String (List String)) 0
           (cacheKey "acme" "infra" "network") ["1.0.0"] none, false) := by
  exact ⟨rfl, rfl, rfl⟩

/-! ## Upstream GitHub service (github package: `Service`)

`makeRequest` is abstracted into oracles: `fetch page` is the decoded tag
page for a given page number (`repos/<owner>/<repo>/tags`), and
`fetchArchive` the decoded source tarball.  The paging loop is given
explicit fuel (`none` = the loop would still be running); the pages the
loop requested are returned alongside the result. -/

/-- `tagsPerPage` from the github package. -/
def tagsPerPage : Nat := 100

/-- The 403 `httpErr` produced by `Service.validRepo`. -/
def forbiddenErr : SvcErr := .http 403 "not a valid repository"

/-- `Service.validRepo`: an empty allow-list permits everything; otherwise
the owner must be mapped and the repository listed under it. -/
def validRepo (repositories : List (String × List String))
    (owner repo : String) : Option SvcErr :=
  if repositories.isEmpty then none
  else
    match repositories.lookup owner with
    | some repos => if repo ∈ repos then none else some forbiddenErr
    | none => some forbiddenErr

/-- Go `strings.HasPrefix`, character by character. -/
def hasPre : List Char → List Char → Bool
  | [], _ => true
  | _ :: _, [] => false
  | a :: p, b :: s => a == b && hasPre p s

/-- The tag filter inside `Service.ListVersions`: keep tags that start
with `"<module>/"` (`strings.HasPrefix`), stripped of that prefix
(`strings.TrimPrefix`), in order. -/
def filtVersions (pre : String) (tags : List String) : List String :=
  tags.filterMap (fun t =>
    if hasPre pre.data t.data then some (t.drop pre.length) else none)

/-- The paging loop of `Service.ListVersions` (github part, lines 52-84):
request pages until one returns fewer than `tagsPerPage` tags or the
request fails.  Also returns the list of page numbers requested. -/
def listVersionsLoop (fetch : Nat → Except SvcErr (List String)) (pre : String) :
    Nat → Nat → List String → Option (Except SvcErr (List String) × List Nat)
  | 0, _, _ => none
  | fuel + 1, page, versions =>
    match fetch page with
    | .error e => some (.error e, [page])
    | .ok tags =>
      let vs := versions ++ filtVersions pre tags
      if tags.length < tagsPerPage then some (.ok vs, [page])
      else
        match listVersionsLoop fetch pre fuel (page + 1) vs with
        | none => none
        | some (r, pages) => some (r, page :: pages)

/-- `Service.ListVersions`: allow-list check, then page through the tag
listing starting at page 1 with an empty accumulator. -/
def listVersions (repositories : List (String × List String))
    (owner repo module : String) (fetch : Nat → Except SvcErr (List String))
    (fuel : Nat) : Option (Except SvcErr (List String) × List Nat) :=
  match validRepo repositories owner repo with
  | some e => some (.error e, [])
  | none => listVersionsLoop fetch (module ++ "/") fuel 1 []

/-- One tar entry: its path, remaining header metadata (abstracted), and
contents. -/
structure TarEntry where
  name : String
  meta : Nat
  content : List Nat
deriving DecidableEq

/-- Strip a literal character-list prefix, or fail. -/
def dropPre : List Char → List Char → Option (List Char)
  | [], s => some s
  | _ :: _, [] => none
  | a :: p, b :: s => if a = b then dropPre p s else none

/-- Split at the first `'/'`: the (possibly empty) run before it and the
remainder after it; fails when there is no slash. -/
def splitFirstSlash : List Char → Option (List Char × List Char)
  | [] => none
  | c :: cs =>
    if c = '/' then some ([], cs)
    else
      match splitFirstSlash cs with
      | some (seg, rest) => some (c :: seg, rest)
      | none => none

/-- The Go regexp match `^<owner>-<repo>-[^/]+/<module>/(.+)` applied by
`copy` via `FindStringSubmatch`, returning the captured group: the
interpolated coordinate names are treated as literal text (registry
coordinates contain no regexp metacharacters); `[^/]+` is the non-empty
run up to the first slash; `.` excludes the newline character, so the
capture is the longest non-empty newline-free run after `"<module>/"`. -/
def matchEntryName (owner repo module : String) (name : String) : Option String :=
  match dropPre (owner ++ "-" ++ repo ++ "-").data name.data with
  | none => none
  | some rest0 =>
    match splitFirstSlash rest0 with
    | none => none
    | some (seg, rest1) =>
      if seg = [] then none
      else
        match dropPre (module ++ "/").data rest1 with
        | none => none
        | some rest2 =>
          let cap := rest2.takeWhile (fun c => decide (c ≠ '\n'))
          if cap = [] then none else some (String.mk cap)

/-- The `copy` function of the github package: rewrite the tar stream
entry by entry, renaming matching entries to the captured group (header
metadata and contents preserved) and silently dropping the rest. -/
def copyTar (owner repo module : String) (entries : List TarEntry) : List TarEntry :=
  entries.filterMap (fun e =>
    match matchEntryName owner repo module e.name with
    | some n => some ⟨n, e.meta, e.content⟩
    | none => none)

/-- `Service.ProxyDownload`: allow-list check, fetch the tag tarball
(gzip framing abstracted), rewrite it with `copy`.  Returns the result
and whether the upstream request was attempted. -/
def proxyDownload (repositories : List (String × List String))
    (owner repo module version : String)
    (fetchArchive : Except SvcErr (List TarEntry)) :
    Except SvcErr (List TarEntry) × Bool :=
  match validRepo repositories owner repo with
  | some e => (.error e, false)
  | none =>
    match fetchArchive with
    | .error e => (.error e, true)
    | .ok entries => (.ok (copyTar owner repo module entries), true)

/-- C4.  Allow-list enforcement: for a coordinate not present in a
non-empty allow-list, `ListVersions` fails with the 403 Forbidden error
having requested no pages, and `ProxyDownload` fails with the same error
without attempting the upstream request; an empty (or absent) allow-list
permits every coordinate — `validRepo` passes, `ListVersions` proceeds to
the paging loop, and `ProxyDownload` attempts the upstream request. -/
theorem allow_list_enforcement :
    (∀ (repositories : List (String × List String))
        (owner repo module : String)
        (fetch : Nat → Except SvcErr (List String)) (fuel : Nat),
      repositories ≠ [] →
      (∀ repos, repositories.lookup owner = some repos → repo ∉ repos) →
      listVersions repositories owner repo module fetch fuel
        = some (.error forbiddenErr, []))
    ∧ (∀ (repositories : List (String × List String))
        (owner repo module version : String)
        (fetchArchive : Except SvcErr (List TarEntry)),
      repositories ≠ [] →
      (∀ repos, repositories.lookup owner = some repos → repo ∉ repos) →
      proxyDownload repositories owner repo module version fetchArchive
        = (.error forbiddenErr, false))
    ∧ (∀ (owner repo : String), validRepo [] owner repo = none)
    ∧ (∀ (owner repo module : String)
        (fetch : Nat → Except SvcErr (List String)) (fuel : Nat),
      listVersions [] owner repo module fetch fuel
        = listVersionsLoop fetch (module ++ "/") fuel 1 [])
    ∧ (∀ (owner repo module version : String)
        (fetchArchive : Except SvcErr (List TarEntry)),
      (proxyDownload [] owner repo module version fetchArchive).2 = true) := by
  have hvr : ∀ (repositories : List (String × List String)) (owner repo : String),
      repositories ≠ [] →
      (∀ repos, repositories.lookup owner = some repos → repo ∉ repos) →
      validRepo repositories owner repo = some forbiddenErr := by
    intro repositories owner repo hne hmem
    rw [validRepo, if_neg (by simpa using hne)]
    cases hl : repositories.lookup owner with
    | none => rfl
    | some repos =>
        show (if repo ∈ repos then none else some forbiddenErr) = some forbiddenErr
        rw [if_neg (hmem repos hl)]
  refine ⟨?_, ?_, ?_, ?_, ?_⟩
  · intro repositories owner repo module fetch fuel hne hmem
    simp only [listVersions, hvr repositories owner repo hne hmem]
  · intro repositories owner repo module version fa hne hmem
    simp only [proxyDownload, hvr repositories owner repo hne hmem]
  · intro owner repo
    simp [validRepo]
  · intro owner repo module fetch fuel
    simp [listVersions, validRepo]
  · intro owner repo module version fa
    simp only [proxyDownload, validRepo, List.isEmpty_nil, if_pos rfl]
    cases fa <;> rfl

/-- Witness: a coordinate outside the allow-list is rejected with the 403
error and no page request, and an empty allow-list lets the same
coordinate through. -/
theorem allow_list_enforcement_witness :
    listVersions [("acme", ["infra"])] "evil" "repo" "network"
        (fun _ => .ok []) 3
      = some (.error forbiddenErr, []) :=
  (allow_list_enforcement).1 [("acme", ["infra"])] "evil" "repo" "network"
    (fun _ => .ok []) 3 (by decide)
    (by intro repos h; simp [List.lookup] at h)

/-- Evaluation of the paging loop over a finite page tape: all pages but
the last are full, the last is short, and the loop aggregates the filtered
tags of every page in order, having requested consecutive page numbers. -/
theorem listVersionsLoop_pages (fetch : Nat → Except SvcErr (List String))
    (pre : String) :
    ∀ (pages : List (List String)) (p0 : Nat) (acc : List String) (fuel : Nat),
    pages ≠ [] → pages.length ≤ fuel →
    (∀ i, i < pages.length → fetch (p0 + i) = .ok (pages.getD i [])) →
    (∀ i, i + 1 < pages.length → (pages.getD i []).length = tagsPerPage) →
    (pages.getD (pages.length - 1) []).length < tagsPerPage →
    listVersionsLoop fetch pre fuel p0 acc
      = some (.ok (acc ++ (pages.map (filtVersions pre)).flatten),
              List.range' p0 pages.length) := by
  intro pages
  induction pages with
  | nil => intro p0 acc fuel hne; exact absurd rfl hne
  | cons pg rest ih =>
    intro p0 acc fuel _ hfuel hf hfull hlast
    obtain ⟨f, rfl⟩ : ∃ f, fuel = f + 1 := by
      cases fuel with
      | zero => simp at hfuel
      | succ f => exact ⟨f, rfl⟩
    have h0 : fetch p0 = .ok pg := by simpa using hf 0 (by simp)
    simp only [listVersionsLoop, h0]
    cases rest with
    | nil =>
      have hsh : pg.length < tagsPerPage := by simpa using hlast
      rw [if_pos hsh]
      simp [List.range']
    | cons r1 rest' =>
      have hfull0 : pg.length = tagsPerPage := by
        simpa using hfull 0 (by simp)
      rw [if_neg (by omega)]
      have hf' : ∀ i, i < (r1 :: rest').length →
          fetch (p0 + 1 + i) = .ok ((r1 :: rest').getD i []) := by
        intro i hi
        have := hf (i + 1) (by simp at hi ⊢; omega)
        simpa [Nat.add_assoc, Nat.add_comm 1 i] using this
      have hfull' : ∀ i, i + 1 < (r1 :: rest').length →
          ((r1 :: rest').getD i []).length = tagsPerPage := by
        intro i hi
        have := hfull (i + 1) (by simp at hi ⊢; omega)
        simpa using this
      have hlast' : ((r1 :: rest').getD ((r1 :: rest').length - 1) []).length
          < tagsPerPage := by
        have hidx : (pg :: r1 :: rest').length - 1
            = ((r1 :: rest').length - 1) + 1 := by simp
        rw [hidx, List.getD_cons_succ] at hlast
        exact hlast
      have ihres := ih (p0 + 1) (acc ++ filtVersions pre pg) f
        (by simp) (by simp at hfuel ⊢; omega) hf' hfull' hlast'
      rw [ihres]
      simp [List.range'_succ, List.append_assoc]

/-- C6.  `Service.ListVersions` tag filtering: over any finite page tape
(full pages followed by one short page), the result is exactly the
in-order concatenation of the `"<module>/"`-prefixed tag suffixes; on the
concrete scenario with allow-list `{acme: [infra]}` and tags
`["network/1.0.0","network/2.0.0","other/1.0.0"]` it returns
`["1.0.0","2.0.0"]`; and an all-filtered-out listing returns the empty
sequence as a non-error. -/
theorem list_versions_tag_filtering :
    (∀ (repositories : List (String × List String))
        (owner repo module : String)
        (fetch : Nat → Except SvcErr (List String)) (fuel : Nat)
        (pages : List (List String)),
      validRepo repositories owner repo = none →
      pages ≠ [] → pages.length ≤ fuel →
      (∀ i, i < pages.length → fetch (1 + i) = .ok (pages.getD i [])) →
      (∀ i, i + 1 < pages.length → (pages.getD i []).length = tagsPerPage) →
      (pages.getD (pages.length - 1) []).length < tagsPerPage →
      listVersions repositories owner repo module fetch fuel
        = some (.ok ((pages.map (filtVersions (module ++ "/"))).flatten),
                List.range' 1 pages.length))
    ∧ (listVersions [("acme", ["infra"])] "acme" "infra" "network"
        (fun _ => .ok ["network/1.0.0", "network/2.0.0", "other/1.0.0"]) 1
        = some (.ok ["1.0.0", "2.0.0"], [1]))
    ∧ (listVersions [] "o" "r" "m" (fun _ => .ok ["x-1.0.0"]) 1
        = some (.ok [], [1])) := by
  refine ⟨?_, by rfl, by rfl⟩
  intro repositories owner repo module fetch fuel pages hok hne hfuel hf hfull hlast
  simp only [listVersions, hok]
  simpa using
    listVersionsLoop_pages fetch (module ++ "/") pages 1 [] fuel hne hfuel hf
      hfull hlast

/-- Witness: the page-tape evaluation at the concrete scenario. -/
theorem list_versions_tag_filtering_witness :
    listVersions [] "acme" "infra" "network"
        (fun _ => .ok ["network/1.0.0", "network/2.0.0", "other/1.0.0"]) 1
      = some (.ok ["1.0.0", "2.0.0"], [1]) := by
  have h := (list_versions_tag_filtering).1 [] "acme" "infra" "network"
    (fun _ => .ok ["network/1.0.0", "network/2.0.0", "other/1.0.0"]) 1
    [["network/1.0.0", "network/2.0.0", "other/1.0.0"]]
    rfl (by decide) (by decide)
    (by
      intro i hi
      have hz : i = 0 := by simpa using hi
      subst hz
      rfl)
    (by intro i hi; simp at hi)
    (by decide)
  exact h

/-- A page of any length is a valid tag page; the loop's first request is
always its start page. -/
theorem listVersionsLoop_start_mem (fetch : Nat → Except SvcErr (List String))
    (pre : String) :
    ∀ (fuel page : Nat) (acc : List String)
      (r : Except SvcErr (List String)) (reqs : List Nat),
    listVersionsLoop fetch pre fuel page acc = some (r, reqs) → page ∈ reqs := by
  intro fuel
  induction fuel with
  | zero => intro page acc r reqs h; simp [listVersionsLoop] at h
  | succ f ih =>
    intro page acc r reqs h
    rw [listVersionsLoop] at h
    cases hfe : fetch page with
    | error e =>
      rw [hfe] at h
      simp only [Option.some.injEq, Prod.mk.injEq] at h
      rw [← h.2]
      exact List.mem_singleton_self page
    | ok tags =>
      rw [hfe] at h
      simp only at h
      by_cases hlen : tags.length < tagsPerPage
      · rw [if_pos hlen] at h
        simp only [Option.some.injEq, Prod.mk.injEq] at h
        rw [← h.2]
        exact List.mem_singleton_self page
      · rw [if_neg hlen] at h
        cases hrec : listVersionsLoop fetch pre f (page + 1)
            (acc ++ filtVersions pre tags) with
        | none => rw [hrec] at h; simp at h
        | some pr =>
          rw [hrec] at h
          obtain ⟨r', pages'⟩ := pr
          simp only [Option.some.injEq, Prod.mk.injEq] at h
          rw [← h.2]
          exact List.mem_cons_self page pages'

/-- C8.  Pagination termination: when a page returns exactly `tagsPerPage`
(100) tags, the next page number is among the requested pages of any
completed run; when a page returns fewer, the loop stops there — that page
is the only one requested from it on and the aggregate is returned. -/
theorem pagination_termination :
    (∀ (fetch : Nat → Except SvcErr (List String)) (pre : String)
        (fuel page : Nat) (acc tags : List String)
        (r : Except SvcErr (List String)) (reqs : List Nat),
      fetch page = .ok tags → tags.length = tagsPerPage →
      listVersionsLoop fetch pre (fuel + 1) page acc = some (r, reqs) →
      (page + 1) ∈ reqs)
    ∧ (∀ (fetch : Nat → Except SvcErr (List String)) (pre : String)
        (fuel page : Nat) (acc tags : List String),
      fetch page = .ok tags → tags.length < tagsPerPage →
      listVersionsLoop fetch pre (fuel + 1) page acc
        = some (.ok (acc ++ filtVersions pre tags), [page])) := by
  constructor
  · intro fetch pre fuel page acc tags r reqs hfe hlen h
    rw [listVersionsLoop, hfe] at h
    simp only at h
    rw [if_neg (by omega)] at h
    cases hrec : listVersionsLoop fetch pre fuel (page + 1)
        (acc ++ filtVersions pre tags) with
    | none => rw [hrec] at h; simp at h
    | some pr =>
      rw [hrec] at h
      obtain ⟨r', pages'⟩ := pr
      simp only [Option.some.injEq, Prod.mk.injEq] at h
      rw [← h.2]
      exact List.mem_cons_of_mem page
        (listVersionsLoop_start_mem fetch pre fuel (page + 1) _ r' pages' hrec)
  · intro fetch pre fuel page acc tags hfe hlen
    rw [listVersionsLoop, hfe]
    simp only
    rw [if_pos hlen]

/-- Witness: one full page of 100 tags triggers a request for page 2; a
short page stops the loop at once. -/
theorem pagination_termination_witness :
    ((2 : Nat) ∈ ([1, 2] : List Nat))
    ∧ listVersionsLoop
        (fun p => if p = 1
          then .ok (List.replicate tagsPerPage "network/1.0.0")
          else .ok [])
        "network/" 1 2 []
      = some (.ok [], [2]) :=
  ⟨(pagination_termination).1
      (fun p => if p = 1
        then .ok (List.replicate tagsPerPage "network/1.0.0")
        else .ok [])
      "network/" 1 1 [] (List.replicate tagsPerPage "network/1.0.0")
      (.ok (List.replicate tagsPerPage "1.0.0")) [1, 2]
      rfl (by decide) rfl,
   (pagination_termination).2
      (fun p => if p = 1
        then .ok (List.replicate tagsPerPage "network/1.0.0")
        else .ok [])
      "network/" 0 2 [] [] rfl (by decide)⟩

theorem dropPre_append (p s : List Char) : dropPre p (p ++ s) = some s := by
  induction p with
  | nil => rfl
  | cons a p ih => simp [dropPre, ih]

theorem splitFirstSlash_append (seg rest : List Char) (h : '/' ∉ seg) :
    splitFirstSlash (seg ++ '/' :: rest) = some (seg, rest) := by
  induction seg with
  | nil => simp [splitFirstSlash]
  | cons c cs ih =>
    have hc : c ≠ '/' := fun hh => h (hh ▸ List.mem_cons_self c cs)
    have ih' := ih (fun hm => h (List.mem_cons_of_mem c hm))
    simp [splitFirstSlash, hc, ih']

theorem takeWhile_no_newline (l : List Char) (h : '\n' ∉ l) :
    l.takeWhile (fun c => decide (c ≠ '\n')) = l := by
  induction l with
  | nil => rfl
  | cons a as ih =>
    rw [List.takeWhile_cons,
      if_pos (by simp; intro hh; exact h (hh ▸ List.mem_cons_self a as)),
      ih (fun hm => h (List.mem_cons_of_mem a hm))]

/-- A path of the shape the regexp targets is matched and the capture is
the payload path after `"<module>/"`. -/
theorem matchEntryName_eq (o r m seg rest : String)
    (hseg : seg ≠ "") (hseg2 : '/' ∉ seg.data)
    (hrest : rest ≠ "") (hrest2 : '\n' ∉ rest.data) :
    matchEntryName o r m (o ++ "-" ++ r ++ "-" ++ seg ++ "/" ++ m ++ "/" ++ rest)
      = some rest := by
  have hsegne : seg.data ≠ [] := fun hd => hseg (congrArg String.mk hd)
  have hrestne : rest.data ≠ [] := fun hd => hrest (congrArg String.mk hd)
  have hname : (o ++ "-" ++ r ++ "-" ++ seg ++ "/" ++ m ++ "/" ++ rest).data
      = (o ++ "-" ++ r ++ "-").data
        ++ (seg.data ++ '/' :: (m.data ++ '/' :: rest.data)) := by
    simp [String.data_append, List.append_assoc]
  rw [matchEntryName, hname, dropPre_append]
  simp only [splitFirstSlash_append seg.data _ hseg2]
  rw [if_neg hsegne]
  have hm2 : m.data ++ '/' :: rest.data = (m ++ "/").data ++ rest.data := by
    simp [String.data_append]
  rw [hm2, dropPre_append]
  simp only [takeWhile_no_newline rest.data hrest2]
  rw [if_neg hrestne]

/-- C5.  Tar rewrite: an entry whose path decomposes as
`<owner>-<repo>-<seg>/<module>/<payload>` (with `<seg>` a non-empty
slash-free ref and a non-empty newline-free payload) is written renamed to
the payload with the same header metadata and contents; an entry whose
path does not match is dropped silently; matching is per entry, preserving
order; and the concrete two-entry archive keeps only the requested
module's `a.txt`. -/
theorem tar_rewrite :
    (∀ (o r m seg rest : String) (meta : Nat) (content : List Nat),
      seg ≠ "" → '/' ∉ seg.data → rest ≠ "" → '\n' ∉ rest.data →
      copyTar o r m
          [⟨o ++ "-" ++ r ++ "-" ++ seg ++ "/" ++ m ++ "/" ++ rest, meta, content⟩]
        = [⟨rest, meta, content⟩])
    ∧ (∀ (o r m : String) (e : TarEntry) (es : List TarEntry),
      matchEntryName o r m e.name = none →
      copyTar o r m (e :: es) = copyTar o r m es)
    ∧ (∀ (o r m : String) (e : TarEntry) (es : List TarEntry) (cap : String),
      matchEntryName o r m e.name = some cap →
      copyTar o r m (e :: es) = ⟨cap, e.meta, e.content⟩ :: copyTar o r m es)
    ∧ (∀ (m1 m2 : Nat) (c1 c2 : List Nat),
      copyTar "owner" "container" "modname"
        [⟨"owner-container-abc123/modname/a.txt", m1, c1⟩,
         ⟨"owner-container-abc123/othermod/b.txt", m2, c2⟩]
        = [⟨"a.txt", m1, c1⟩]) := by
  refine ⟨?_, ?_, ?_, ?_⟩
  · intro o r m seg rest meta content h1 h2 h3 h4
    simp only [copyTar, List.filterMap,
      matchEntryName_eq o r m seg rest h1 h2 h3 h4]
  · intro o r m e es h
    simp only [copyTar, List.filterMap_cons, h]
  · intro o r m e es cap h
    simp only [copyTar, List.filterMap_cons, h]
  · intro m1 m2 c1 c2
    have ha : matchEntryName "owner" "container" "modname"
        "owner-container-abc123/modname/a.txt" = some "a.txt" := by decide
    have hb : matchEntryName "owner" "container" "modname"
        "owner-container-abc123/othermod/b.txt" = none := by decide
    simp only [copyTar, List.filterMap_cons, ha, hb, List.filterMap_nil]

/-- Witness: the decomposed-path rewrite at one concrete entry. -/
theorem tar_rewrite_witness :
    copyTar "o" "r" "m" [⟨"o-r-x/m/f.txt", 7, [1, 2]⟩] = [⟨"f.txt", 7, [1, 2]⟩] :=
  (tar_rewrite).1 "o" "r" "m" "x" "f.txt" 7 [1, 2]
    (by decide) (by decide) (by decide) (by decide)

/-- Witness: the three `ProxyDownload` branches at concrete outcomes. -/
theorem cache_proxy_download_fallback_witness :
    cacheProxyDownload SvcErr (.error (.other "open failed")) (.ok ())
        (.ok ()) (.error (.other "upstream"))
      = (.error (.other "upstream"), true) :=
  (cache_proxy_download_fallback SvcErr (.ok ())
      (.error (.other "upstream"))).2.2
    (.other "open failed") (.ok ())

/-- C9 (the code at the failing input).  `mcache.Cache.Get` never
returns: it takes `mu.RLock()` but defers `mu.Unlock()`, and unlocking a
read-locked `sync.RWMutex` for writing is an unconditional runtime fatal
thrown when the deferred call runs — so with a 10-second default expiry,
`Set("k","v")` at time 0 followed by `Get("k")` dies instead of
returning `("v", true)`.  The read the body computes before the fatal
(equally, `Get` with the lock slip repaired) does behave as the claim
states: `"v"` immediately, a miss after 11 simulated seconds, with the
entry still in the map (reads never mutate it). -/
theorem mcache_get_fatal :
    MCache.get
        (MCache.set (⟨10 * nsPerSec, []⟩ : MCache String String) 0 "k" "v" none)
        0 "k" = .fatal
    ∧ MCache.getRead
        (MCache.set (⟨10 * nsPerSec, []⟩ : MCache String String) 0 "k" "v" none)
        0 "k" = some "v"
    ∧ MCache.getRead
        (MCache.set (⟨10 * nsPerSec, []⟩ : MCache String String) 0 "k" "v" none)
        (11 * nsPerSec) "k" = none
    ∧ (MCache.set (⟨10 * nsPerSec, []⟩ : MCache String String) 0 "k" "v"
        none).items.lookup "k" = some ⟨"v", 10 * nsPerSec⟩ := by
  exact ⟨rfl, by decide, by decide, by decide⟩

/-- Counterexample to C10 as stated: at the concrete colliding
coordinate, the program does not serve the version list cached for the
other coordinate — the call dies in the store read's lock-misuse fatal
before any result is produced, so nothing is "served verbatim". -/
theorem cache_key_collision_counterexample :
    cacheListVersions
        (MCache.set (⟨10 * nsPerSec, []⟩ : MCache String (List String)) 0
          (cacheKey "a-b" "c" "d") ["1.0"] none)
        0 "a" "b-c" "d" (.error (.other "oops")) = .fatal
    ∧ (FatalOr.fatal :
        FatalOr (Except SvcErr (List String) × MCache String (List String) × Bool))
      ≠ .ret (.ok ["1.0"],
          MCache.set (⟨10 * nsPerSec, []⟩ : MCache String (List String)) 0
            (cacheKey "a-b" "c" "d") ["1.0"] none, false) :=
  ⟨rfl, fun h => nomatch h⟩

/-- C10 (amended).  The version-list cache key and the archive filename
join the coordinate with `"-"` and are therefore not injective: the
distinct coordinates `("a-b","c","d")` and `("a","b-c","d")` share both.
Consequently the read the store computes for the second coordinate finds
the entry stored under the first, and the decorator's read-through logic
returns it verbatim with no repository call — though in the program as
written the store read dies in the `Cache.Get` lock-misuse fatal before
that result can be served. -/
theorem cache_key_collision :
    cacheKey "a-b" "c" "d" = cacheKey "a" "b-c" "d"
    ∧ (("a-b", "c", "d") : String × String × String) ≠ ("a", "b-c", "d")
    ∧ archiveFilename "a-b" "c" "d" "v" = archiveFilename "a" "b-c" "d" "v"
    ∧ (("a-b", "c", "d", "v") : String × String × String × String)
        ≠ ("a", "b-c", "d", "v")
    ∧ MCache.getRead
        (MCache.set (⟨10 * nsPerSec, []⟩ : MCache String (List String)) 0
          (cacheKey "a-b" "c" "d") ["1.0"] none)
        0 (cacheKey "a" "b-c" "d") = some ["1.0"]
    ∧ cacheListVersionsRead
        (MCache.set (⟨10 * nsPerSec, []⟩ : MCache String (List String)) 0
          (cacheKey "a-b" "c" "d") ["1.0"] none)
        0 "a" "b-c" "d" (.error (.other "oops"))
      = (.ok ["1.0"],
         MCache.set (⟨10 * nsPerSec, []⟩ : MCache String (List String)) 0
           (cacheKey "a-b" "c" "d") ["1.0"] none,
         false) := by
  exact ⟨by decide, by decide, by decide, by decide, by rfl, by rfl⟩

end Orbit
